import Mathlib

/-!
# Verification of the raspi-mcc128-influx edge collector

Shallow embedding of the acquisition/calibration/delivery pipeline of the
edge data collector, together with proofs of the spec's testable
properties.  Machine integers from the Python source are modelled as
`Int`/`Nat` (nanosecond timestamps fit comfortably; Python ints are
unbounded anyway), analog values as `ℚ`, and side effects (logging,
HTTP, file and FTP operations) as explicit event lists.
-/

namespace RaspiMcc

/-! ## Calibration (`edge/scr/calibrate.py`) -/

/-- `apply_calibration(volts_list, gain, offset)`: `mm = gain*V + offset`
mapped over the vector. -/
def apply_calibration (voltsList : List ℚ) (gain offset : ℚ) : List ℚ :=
  voltsList.map fun v => gain * v + offset

/-! ## Timestamp reconstruction and the acquisition loop
(`edge/scr/acquisition.py`) -/

/-- `_consume_block_timestamps(next_ts_ns, block_len, ts_step)`: the block's
timestamps `[next_ts_ns + i*ts_step for i in range(block_len)]` and the
updated accumulator `next_ts_ns + block_len*ts_step`. -/
def consumeBlockTimestamps (nextTsNs : ℤ) (blockLen : ℕ) (tsStep : ℤ) :
    List ℤ × ℤ :=
  ((List.range blockLen).map fun i : ℕ => nextTsNs + (i : ℤ) * tsStep,
    nextTsNs + (blockLen : ℤ) * tsStep)

/-- One `read_block` result as observed by `AcquisitionRunner.run`, together
with the clock readings and stop flag the loop observes around it.
`raw` holds the de-interleaved values, one list per configured channel
(first entry is the channel whose length defines `block_len`). -/
structure BlockRead where
  raw : List (List ℚ)
  capturedNs : ℤ
  stopFlag : Bool
  topNowNs : ℤ

/-- `raw[channel_indices[0]]`: the first configured channel's value list,
whose length defines `block_len` (empty when there are no channels). -/
def firstChannel (raw : List (List ℚ)) : List ℚ :=
  match raw with
  | [] => []
  | v :: _ => v

/-- `acquisition_deadline_ns is not None and now >= deadline`. -/
def deadlineHit (deadline : Option ℤ) (nowNs : ℤ) : Bool :=
  match deadline with
  | none => false
  | some d => decide (d ≤ nowNs)

/-- `drift_threshold_ns is not None and abs_drift_ns > drift_threshold_ns`. -/
def snapCondition (thresholdNs : Option ℤ) (driftNs : ℤ) : Bool :=
  match thresholdNs with
  | none => false
  | some t => decide (t < |driftNs|)

/-- One iteration's outcome: the block as delivered to `_handle_block`
(timestamps and truncated values), plus the data deciding the drift
correction for the next block. -/
structure IterOut where
  startTs : ℤ
  len : ℕ
  timestamps : List ℤ
  values : List (List ℚ)
  capturedNs : ℤ
  snapped : Bool

/-- The sample-budget truncation: `block_len` after
`if remaining_samples is not None and block_len > remaining_samples`. -/
def blockLenOf (remaining : Option ℕ) (rawLen : ℕ) : ℕ :=
  match remaining with
  | some r => if r < rawLen then r else rawLen
  | none => rawLen

theorem blockLenOf_pos (remaining : Option ℕ) (rawLen : ℕ)
    (hrem : ∀ r, remaining = some r → 0 < r) (hraw : rawLen ≠ 0) :
    0 < blockLenOf remaining rawLen := by
  cases remaining with
  | none => simpa [blockLenOf] using Nat.pos_of_ne_zero hraw
  | some r =>
    have := hrem r rfl
    simp only [blockLenOf]
    split <;> omega

theorem blockLenOf_le (remaining : Option ℕ) (rawLen r : ℕ)
    (h : remaining = some r) : blockLenOf remaining rawLen ≤ r := by
  subst h
  simp only [blockLenOf]
  split <;> omega

/-- The `while True` loop of `AcquisitionRunner.run`, driven by the list of
pending `read_block` results.  Mirrors, in order: the stop-flag check, the
deadline check, the empty-block `continue`, the sample-budget truncation,
`_consume_block_timestamps`, the drift correction, the budget decrement
with its `<= 0` break, and the post-block deadline break. -/
def runLoop (tsStep : ℤ) (thr : Option ℤ) (deadline : Option ℤ) :
    ℤ → Option ℕ → List BlockRead → List IterOut
  | _, _, [] => []
  | nextTs, remaining, b :: bs =>
    if b.stopFlag then []
    else if deadlineHit deadline b.topNowNs then []
    else
      let rawLen := (firstChannel b.raw).length
      if rawLen = 0 then runLoop tsStep thr deadline nextTs remaining bs
      else
        let blockLen := blockLenOf remaining rawLen
        let truncated := b.raw.map fun vals => vals.take blockLen
        let candidateNext := (consumeBlockTimestamps nextTs blockLen tsStep).2
        let expectedNext := b.capturedNs + tsStep
        let snapped := snapCondition thr (expectedNext - candidateNext)
        let out : IterOut :=
          ⟨nextTs, blockLen, (consumeBlockTimestamps nextTs blockLen tsStep).1,
            truncated, b.capturedNs, snapped⟩
        let remaining2 := remaining.map fun r => r - blockLen
        if remaining2 = some 0 then [out]
        else if deadlineHit deadline b.capturedNs then [out]
        else runLoop tsStep thr deadline
          (if snapped then expectedNext else candidateNext) remaining2 bs |>.cons out

/-- All timestamps the run emits, in emission order. -/
def emittedTimestamps (outs : List IterOut) : List ℤ :=
  (outs.map IterOut.timestamps).flatten

/-- The accumulator value the loop carries into the block after `o`. -/
def nextAfter (tsStep : ℤ) (o : IterOut) : ℤ :=
  if o.snapped then o.capturedNs + tsStep else o.startTs + (o.len : ℤ) * tsStep

/-- Chained characterisation of the loop's output: each block starts at the
current accumulator, carries arithmetic-progression timestamps, records the
drift decision for its own drift value, and hands `nextAfter` to its
successor. -/
def Linked (tsStep : ℤ) (thr : Option ℤ) : ℤ → List IterOut → Prop
  | _, [] => True
  | nextTs, o :: os =>
    o.startTs = nextTs ∧
    o.timestamps = (List.range o.len).map (fun i : ℕ => o.startTs + (i : ℤ) * tsStep) ∧
    o.snapped = snapCondition thr
      (o.capturedNs + tsStep - (o.startTs + (o.len : ℤ) * tsStep)) ∧
    Linked tsStep thr (nextAfter tsStep o) os

theorem runLoop_linked (tsStep : ℤ) (thr deadline : Option ℤ) :
    ∀ (blocks : List BlockRead) (nextTs : ℤ) (remaining : Option ℕ),
      Linked tsStep thr nextTs (runLoop tsStep thr deadline nextTs remaining blocks) := by
  intro blocks
  induction blocks with
  | nil => intro nextTs remaining; simp [runLoop, Linked]
  | cons b bs ih =>
    intro nextTs remaining
    simp only [runLoop]
    split
    · simp [Linked]
    · split
      · simp [Linked]
      · split
        · exact ih nextTs remaining
        · split
          · exact ⟨rfl, rfl, rfl, trivial⟩
          · split
            · exact ⟨rfl, rfl, rfl, trivial⟩
            · exact ⟨rfl, rfl, rfl, ih _ _⟩

theorem runLoop_len_pos (tsStep : ℤ) (thr deadline : Option ℤ) :
    ∀ (blocks : List BlockRead) (nextTs : ℤ) (remaining : Option ℕ),
      (∀ r, remaining = some r → 0 < r) →
      ∀ o ∈ runLoop tsStep thr deadline nextTs remaining blocks, 0 < o.len := by
  intro blocks
  induction blocks with
  | nil => intro nextTs remaining _ o ho; simp [runLoop] at ho
  | cons b bs ih =>
    intro nextTs remaining hrem o ho
    simp only [runLoop] at ho
    split at ho
    · simp at ho
    · split at ho
      · simp at ho
      · split at ho
        · exact ih nextTs remaining hrem o ho
        · rename_i hraw
          have hpos := blockLenOf_pos remaining (firstChannel b.raw).length hrem hraw
          split at ho
          · simp only [List.mem_singleton] at ho
            subst ho
            exact hpos
          · split at ho
            · simp only [List.mem_singleton] at ho
              subst ho
              exact hpos
            · rename_i hbudget _
              rw [List.mem_cons] at ho
              rcases ho with rfl | ho
              · exact hpos
              · refine ih _ _ ?_ o ho
                intro r2 hr2
                cases hr : remaining with
                | none => rw [hr] at hr2; simp at hr2
                | some r =>
                  rw [hr] at hr2 hbudget
                  have hle := blockLenOf_le (some r) (firstChannel b.raw).length r rfl
                  simp only [Option.map_some', Option.some.injEq] at hr2
                  simp only [Option.map_some', ne_eq, Option.some.injEq] at hbudget
                  omega

theorem linked_chain (tsStep : ℤ) (thr : Option ℤ) :
    ∀ (outs : List IterOut) (nextTs : ℤ), Linked tsStep thr nextTs outs →
      List.Chain' (fun a b => b.startTs = nextAfter tsStep a) outs ∧
      (∀ y ∈ outs.head?, y.startTs = nextTs) := by
  intro outs
  induction outs with
  | nil => intro nextTs _; simp
  | cons o os ih =>
    intro nextTs h
    obtain ⟨hstart, _, _, hrest⟩ := h
    obtain ⟨hchain, hhead⟩ := ih (nextAfter tsStep o) hrest
    refine ⟨List.chain'_cons'.2 ⟨?_, hchain⟩, ?_⟩
    · intro y hy
      exact hhead y hy
    · intro y hy
      simp only [List.head?_cons, Option.mem_def, Option.some.injEq] at hy
      rw [← hy]
      exact hstart

theorem linked_timestamps (tsStep : ℤ) (thr : Option ℤ) :
    ∀ (outs : List IterOut) (nextTs : ℤ), Linked tsStep thr nextTs outs →
      ∀ o ∈ outs,
        o.timestamps = (List.range o.len).map (fun i : ℕ => o.startTs + (i : ℤ) * tsStep) := by
  intro outs
  induction outs with
  | nil => intro nextTs _; simp
  | cons o os ih =>
    intro nextTs h o2 ho2
    obtain ⟨_, hts, _, hrest⟩ := h
    rcases List.mem_cons.1 ho2 with rfl | hmem
    · exact hts
    · exact ih (nextAfter tsStep o) hrest o2 hmem

theorem linked_snapped (tsStep : ℤ) (thr : Option ℤ) :
    ∀ (outs : List IterOut) (nextTs : ℤ), Linked tsStep thr nextTs outs →
      ∀ o ∈ outs,
        o.snapped = snapCondition thr
          (o.capturedNs + tsStep - (o.startTs + (o.len : ℤ) * tsStep)) := by
  intro outs
  induction outs with
  | nil => intro nextTs _; simp
  | cons o os ih =>
    intro nextTs h o2 ho2
    obtain ⟨_, _, hsnap, hrest⟩ := h
    rcases List.mem_cons.1 ho2 with rfl | hmem
    · exact hsnap
    · exact ih (nextAfter tsStep o) hrest o2 hmem

theorem rangeMap_chain (n : ℕ) (s tsStep : ℤ) :
    List.Chain' (fun a b => b = a + tsStep)
      ((List.range n).map fun i : ℕ => s + (i : ℤ) * tsStep) := by
  rw [List.chain'_iff_get]
  intro i h
  simp only [List.length_map, List.length_range] at h
  simp only [List.get_eq_getElem, List.getElem_map, List.getElem_range]
  push_cast
  ring

theorem rangeMap_head (n : ℕ) (hn : 0 < n) (f : ℕ → ℤ) :
    ((List.range n).map f).head? = some (f 0) := by
  cases n with
  | zero => omega
  | succ m => rw [List.range_succ_eq_map]; simp

theorem rangeMap_getLast (n : ℕ) (hn : 0 < n) (f : ℕ → ℤ) :
    ((List.range n).map f).getLast? = some (f (n - 1)) := by
  cases n with
  | zero => omega
  | succ m =>
    rw [List.range_succ, List.map_append]
    simp

theorem sum_ge_length (l : List IterOut) (h : ∀ o ∈ l, 1 ≤ o.len) :
    l.length ≤ (l.map IterOut.len).sum := by
  induction l with
  | nil => simp
  | cons o os ih =>
    simp only [List.map_cons, List.sum_cons, List.length_cons]
    have h1 := h o (List.mem_cons_self o os)
    have h2 := ih fun x hx => h x (List.mem_cons_of_mem o hx)
    omega

/-- C1 — Monotone timestamps.  The claim's universal strict monotonicity is
refuted: a drift snap with a large negative drift sets `next_ts_ns` to
`expected_next = captured_at + ts_step`, which can lie before the last
emitted timestamp, so the very next block's timestamps go backwards.
Concretely: `ts_step = 1_000_000`, threshold `0`, `next_ts` starts at
`10^9`, one block of 2 samples captured at wall time `5·10^8`, then one
more block of 1 sample: emitted timestamps are
`[10^9, 1_001_000_000, 501_000_000]`. -/
theorem timestamps_not_strictly_increasing :
    ¬ List.Chain' (· < ·)
      (emittedTimestamps (runLoop 1000000 (some 0) none 1000000000 none
        [⟨[[0, 0]], 500000000, false, 0⟩, ⟨[[0]], 600000000, false, 0⟩])) := by
  have hcomp : emittedTimestamps (runLoop 1000000 (some 0) none 1000000000 none
      [⟨[[0, 0]], 500000000, false, 0⟩, ⟨[[0]], 600000000, false, 0⟩]) =
      [1000000000, 1001000000, 501000000] := by rfl
  rw [hcomp]
  simp only [List.chain'_cons, List.chain'_singleton, and_true]
  omega

/-- C1 (amended) — Monotone timestamps except across backward drift snaps:
for every run, (1) within a block consecutive timestamps differ by exactly
`ts_step`; (2) after each block the accumulator is `expected_next` exactly
when a threshold is configured and `|drift| > threshold`, and
`candidate_next = next_ts_ns + block_len·ts_step` otherwise, and the next
block starts there; (3) the drift decision recorded by each block matches
that rule; and (4) provided every drift snap re-anchors to a point after
the block's last emitted timestamp, all emitted timestamps are strictly
increasing (in particular they are when no snap fires). -/
theorem monotone_timestamps_amended (tsStep : ℤ) (thr deadline : Option ℤ)
    (next0 : ℤ) (rem : Option ℕ) (blocks : List BlockRead)
    (hstep : 0 < tsStep)
    (hrem : ∀ r, rem = some r → 0 < r) :
    (∀ o ∈ runLoop tsStep thr deadline next0 rem blocks,
      List.Chain' (fun a b => b = a + tsStep) o.timestamps) ∧
    List.Chain' (fun a b => b.startTs =
        if a.snapped then a.capturedNs + tsStep else a.startTs + (a.len : ℤ) * tsStep)
      (runLoop tsStep thr deadline next0 rem blocks) ∧
    (∀ o ∈ runLoop tsStep thr deadline next0 rem blocks,
      o.snapped = snapCondition thr
        (o.capturedNs + tsStep - (o.startTs + (o.len : ℤ) * tsStep))) ∧
    ((∀ o ∈ runLoop tsStep thr deadline next0 rem blocks,
        o.snapped = true → o.startTs + ((o.len : ℤ) - 1) * tsStep < o.capturedNs + tsStep) →
      List.Chain' (· < ·) (emittedTimestamps (runLoop tsStep thr deadline next0 rem blocks))) := by
  have hlinked := runLoop_linked tsStep thr deadline blocks next0 rem
  have hts := linked_timestamps tsStep thr _ next0 hlinked
  have hchain := (linked_chain tsStep thr _ next0 hlinked).1
  have hlenpos := runLoop_len_pos tsStep thr deadline blocks next0 rem hrem
  refine ⟨?_, ?_, linked_snapped tsStep thr _ next0 hlinked, ?_⟩
  · intro o ho
    rw [hts o ho]
    exact rangeMap_chain o.len o.startTs tsStep
  · exact hchain
  · intro hsnapfwd
    have hnn : [] ∉ (runLoop tsStep thr deadline next0 rem blocks).map IterOut.timestamps := by
      intro hnil
      rw [List.mem_map] at hnil
      obtain ⟨o, ho, hts0⟩ := hnil
      have hpos := hlenpos o ho
      rw [hts o ho, List.map_eq_nil_iff, List.range_eq_nil] at hts0
      omega
    rw [emittedTimestamps, List.chain'_flatten hnn]
    constructor
    · intro l hl
      rw [List.mem_map] at hl
      obtain ⟨o, ho, rfl⟩ := hl
      rw [hts o ho]
      exact List.Chain'.imp (fun a b hab => by omega) (rangeMap_chain o.len o.startTs tsStep)
    · rw [List.chain'_iff_get]
      intro i h
      simp only [List.length_map] at h
      have hi : i < (runLoop tsStep thr deadline next0 rem blocks).length := by omega
      have hi1 : i + 1 < (runLoop tsStep thr deadline next0 rem blocks).length := by omega
      simp only [List.get_eq_getElem, List.getElem_map]
      set a := (runLoop tsStep thr deadline next0 rem blocks)[i] with ha
      set b := (runLoop tsStep thr deadline next0 rem blocks)[i + 1] with hb
      have hamem : a ∈ runLoop tsStep thr deadline next0 rem blocks := by
        rw [ha]; exact List.getElem_mem hi
      have hbmem : b ∈ runLoop tsStep thr deadline next0 rem blocks := by
        rw [hb]; exact List.getElem_mem hi1
      have hstep2 := List.chain'_iff_get.1 hchain i (by omega)
      simp only [List.get_eq_getElem] at hstep2
      rw [← ha, ← hb] at hstep2
      intro x hx y hy
      rw [hts a hamem, rangeMap_getLast a.len (hlenpos a hamem) _] at hx
      rw [hts b hbmem, rangeMap_head b.len (hlenpos b hbmem) _] at hy
      simp only [Option.mem_def, Option.some.injEq] at hx hy
      rw [← hx, ← hy]
      have hposa := hlenpos a hamem
      push_cast
      rw [hstep2]
      have hcast : ((a.len - 1 : ℕ) : ℤ) = (a.len : ℤ) - 1 := by
        omega
      rw [hcast]
      by_cases hs : a.snapped
      · have := hsnapfwd a hamem hs
        rw [nextAfter, if_pos hs]
        linarith
      · rw [nextAfter, if_neg hs]
        have h1 : (a.len : ℤ) - 1 < (a.len : ℤ) := by omega
        have := mul_lt_mul_of_pos_right h1 hstep
        linarith

theorem monotone_timestamps_amended_witness :
    List.Chain' (· < ·) (emittedTimestamps (runLoop 1000000 none none 0 none
      [⟨[[0, 0]], 0, false, 0⟩])) :=
  (monotone_timestamps_amended 1000000 none none 0 none [⟨[[0, 0]], 0, false, 0⟩]
    (by decide) (fun _ h => Option.noConfusion h)).2.2.2 (by decide)

theorem blockLenOf_le_raw (remaining : Option ℕ) (rawLen : ℕ) :
    blockLenOf remaining rawLen ≤ rawLen := by
  cases remaining with
  | none => simp [blockLenOf]
  | some r => simp only [blockLenOf]; split <;> omega

theorem runLoop_budget_sum (tsStep : ℤ) (thr deadline : Option ℤ) :
    ∀ (blocks : List BlockRead) (nextTs : ℤ) (T : ℕ),
      1 ≤ T → T ≤ blocks.length →
      (∀ b ∈ blocks, b.stopFlag = false) →
      (∀ b ∈ blocks, deadlineHit deadline b.topNowNs = false) →
      (∀ b ∈ blocks, deadlineHit deadline b.capturedNs = false) →
      (∀ b ∈ blocks, (firstChannel b.raw).length ≠ 0) →
      ((runLoop tsStep thr deadline nextTs (some T) blocks).map IterOut.len).sum = T := by
  intro blocks
  induction blocks with
  | nil => intro nextTs T hT hlen _ _ _ _; simp at hlen; omega
  | cons b bs ih =>
    intro nextTs T hT hlen hstop hdtop hdcap hraw
    have hstopb := hstop b (List.mem_cons_self b bs)
    have hdtopb := hdtop b (List.mem_cons_self b bs)
    have hdcapb := hdcap b (List.mem_cons_self b bs)
    have hrawb := hraw b (List.mem_cons_self b bs)
    have hble := blockLenOf_le (some T) (firstChannel b.raw).length T rfl
    have hbpos := blockLenOf_pos (some T) (firstChannel b.raw).length
      (fun r hr => by cases hr; omega) hrawb
    simp only [runLoop, hstopb, hdtopb, hdcapb, Bool.false_eq_true, if_false,
      if_neg hrawb, Option.map_some']
    by_cases hz : T - blockLenOf (some T) (firstChannel b.raw).length = 0
    · rw [if_pos (by rw [hz])]
      simp only [List.map_cons, List.map_nil, List.sum_cons, List.sum_nil]
      omega
    · rw [if_neg (by simp [hz])]
      simp only [List.cons_eq_cons, List.map_cons, List.sum_cons]
      rw [ih _ (T - blockLenOf (some T) (firstChannel b.raw).length) (by omega)
        (by simp at hlen; omega)
        (fun x hx => hstop x (List.mem_cons_of_mem b hx))
        (fun x hx => hdtop x (List.mem_cons_of_mem b hx))
        (fun x hx => hdcap x (List.mem_cons_of_mem b hx))
        (fun x hx => hraw x (List.mem_cons_of_mem b hx))]
      omega

theorem runLoop_values_len (tsStep : ℤ) (thr deadline : Option ℤ) :
    ∀ (blocks : List BlockRead) (nextTs : ℤ) (remaining : Option ℕ),
      (∀ b ∈ blocks, ∀ row ∈ b.raw, row.length = (firstChannel b.raw).length) →
      ∀ o ∈ runLoop tsStep thr deadline nextTs remaining blocks,
        ∀ row ∈ o.values, row.length = o.len := by
  intro blocks
  induction blocks with
  | nil => intro nextTs remaining _ o ho; simp [runLoop] at ho
  | cons b bs ih =>
    intro nextTs remaining hrows o ho
    have hrowsb := hrows b (List.mem_cons_self b bs)
    have hrest := fun x hx => hrows x (List.mem_cons_of_mem b hx)
    simp only [runLoop] at ho
    split at ho
    · simp at ho
    · split at ho
      · simp at ho
      · split at ho
        · exact ih nextTs remaining hrest o ho
        · rename_i hraw
          have hle := blockLenOf_le_raw remaining (firstChannel b.raw).length
          have hval : ∀ row ∈ b.raw.map
              (fun vals => vals.take (blockLenOf remaining (firstChannel b.raw).length)),
              row.length = blockLenOf remaining (firstChannel b.raw).length := by
            intro row hrow
            rw [List.mem_map] at hrow
            obtain ⟨v, hv, rfl⟩ := hrow
            rw [List.length_take]
            have := hrowsb v hv
            omega
          split at ho
          · simp only [List.mem_singleton] at ho
            subst ho
            exact hval
          · split at ho
            · simp only [List.mem_singleton] at ho
              subst ho
              exact hval
            · rw [List.mem_cons] at ho
              rcases ho with rfl | ho
              · exact hval
              · exact ih _ _ hrest o ho

/-- C3 — Budget termination: in `timed` mode with `total_samples = T ≥ 1`,
if no stop is requested, no duration deadline intervenes and every
`read_block` yields a non-empty block, the final block is truncated so
that the emitted block lengths sum to exactly `T`, every channel's
truncated value row has exactly the block's length (so each configured
channel gets exactly `T` samples), and the loop breaks after at most `T`
iterations (the budget reaches zero rather than the input running out). -/
theorem budget_termination (tsStep : ℤ) (thr deadline : Option ℤ) (next0 : ℤ)
    (T : ℕ) (blocks : List BlockRead)
    (hT : 1 ≤ T) (hlen : T ≤ blocks.length)
    (hstop : ∀ b ∈ blocks, b.stopFlag = false)
    (hdtop : ∀ b ∈ blocks, deadlineHit deadline b.topNowNs = false)
    (hdcap : ∀ b ∈ blocks, deadlineHit deadline b.capturedNs = false)
    (hraw : ∀ b ∈ blocks, (firstChannel b.raw).length ≠ 0)
    (hrows : ∀ b ∈ blocks, ∀ row ∈ b.raw, row.length = (firstChannel b.raw).length) :
    ((runLoop tsStep thr deadline next0 (some T) blocks).map IterOut.len).sum = T ∧
    (∀ o ∈ runLoop tsStep thr deadline next0 (some T) blocks,
      ∀ row ∈ o.values, row.length = o.len) ∧
    (runLoop tsStep thr deadline next0 (some T) blocks).length ≤ T := by
  have hsum := runLoop_budget_sum tsStep thr deadline blocks next0 T hT hlen hstop hdtop hdcap hraw
  refine ⟨hsum, runLoop_values_len tsStep thr deadline blocks next0 (some T) hrows, ?_⟩
  have hpos := runLoop_len_pos tsStep thr deadline blocks next0 (some T)
    (fun r hr => by cases hr; omega)
  have := sum_ge_length (runLoop tsStep thr deadline next0 (some T) blocks)
    (fun o ho => hpos o ho)
  omega

theorem budget_termination_witness :
    ((runLoop 1000000 none none 0 (some 2)
      [⟨[[0, 0, 0]], 0, false, 0⟩, ⟨[[0]], 10, false, 0⟩]).map IterOut.len).sum = 2 :=
  (budget_termination 1000000 none none 0 2
    [⟨[[0, 0, 0]], 0, false, 0⟩, ⟨[[0]], 10, false, 0⟩]
    (by decide) (by decide) (by decide) (by decide) (by decide) (by decide) (by decide)).1

/-! ## Sample fan-out (`AcquisitionRunner._handle_block` and the sink
selection in `AcquisitionRunner.run`) -/

/-- A configured channel (`edge/config/schema.py` `ChannelConfig`), with its
linear calibration. -/
structure ChannelConfig where
  index : ℕ
  name : String
  unit : String
  gain : ℚ
  offset : ℚ
deriving DecidableEq

/-- The tag set `_handle_block` attaches to every sample. -/
structure SampleTags where
  pi : String
  sensor : String
  unidad : String
  canal : ℕ
deriving DecidableEq

/-- The metadata dict `_handle_block` builds for every sample. -/
structure SampleMetadata where
  measurement : String
  tags : SampleTags
  station_id : String
  sensor_name : String
  unit : String
deriving DecidableEq

/-- `Sample` (`edge/scr/sinks/base.py`): `calibrated_values` always equals
`{"valor": value}` on the runner path, modelled by the single field
`valor`. -/
structure Sample where
  channel : ℕ
  timestamp_ns : ℤ
  valor : ℚ
  metadata : SampleMetadata
deriving DecidableEq

/-- `CalibratedChannelBlock` from `edge/scr/acquisition.py`. -/
structure CalibratedChannelBlock where
  index : ℕ
  name : String
  unit : String
  values : List ℚ
deriving DecidableEq

/-- `CalibratedBlock` from `edge/scr/acquisition.py`; the `channels` dict is
an insertion-ordered association list. -/
structure CalibratedBlock where
  station_id : String
  timestamps_ns : List ℤ
  channels : List (ℕ × CalibratedChannelBlock)
  captured_at_ns : ℤ
deriving DecidableEq

/-- `AcquisitionBlock`: `values_by_channel` as an association list keyed by
channel index. -/
structure AcquisitionBlockM where
  timestamps_ns : List ℤ
  values_by_channel : List (ℕ × List ℚ)
  captured_at_ns : ℤ

/-- The sample `_handle_block` builds for channel `ch` at `(ts_ns, value)`. -/
def mkSample (stationId : String) (ch : ChannelConfig) (tsNs : ℤ) (value : ℚ) : Sample :=
  { channel := ch.index
    timestamp_ns := tsNs
    valor := value
    metadata :=
      { measurement := "lvdt"
        tags := { pi := stationId, sensor := ch.name, unidad := ch.unit, canal := ch.index }
        station_id := stationId
        sensor_name := ch.name
        unit := ch.unit } }

/-- One pass of `_handle_block`'s `for channel in self.channels` loop body,
accumulating the `calibrated_channels` dict and the dispatched
`(sink, sample)` pairs (`_dispatch_sample` hands each sample to every
active sink in order). -/
def handleChannelStep (activeSinks : List ℕ) (stationId : String)
    (block : AcquisitionBlockM)
    (acc : List (ℕ × CalibratedChannelBlock) × List (ℕ × Sample))
    (ch : ChannelConfig) :
    List (ℕ × CalibratedChannelBlock) × List (ℕ × Sample) :=
  let values := (block.values_by_channel.lookup ch.index).getD []
  let calibrated := apply_calibration values ch.gain ch.offset
  let calAcc :=
    if calibrated.isEmpty then acc.1
    else acc.1 ++ [(ch.index, ⟨ch.index, ch.name, ch.unit, calibrated⟩)]
  let dispAcc :=
    if activeSinks.isEmpty then acc.2
    else acc.2 ++ (block.timestamps_ns.zip calibrated).flatMap
      (fun p => activeSinks.map fun s => (s, mkSample stationId ch p.1 p.2))
  (calAcc, dispAcc)

/-- `AcquisitionRunner._handle_block`: returns the dispatched
`(sink, sample)` pairs and the preview block published (if any). -/
def handleBlock (testModeActive : Bool) (broadcastChannelPresent : Bool)
    (activeSinks : List ℕ) (stationId : String)
    (channels : List ChannelConfig) (block : AcquisitionBlockM) :
    List (ℕ × Sample) × Option CalibratedBlock :=
  let shouldBroadcast := testModeActive && broadcastChannelPresent
  if activeSinks.isEmpty && !shouldBroadcast then ([], none)
  else
    let folded := channels.foldl (handleChannelStep activeSinks stationId block) ([], [])
    let preview :=
      if shouldBroadcast && !folded.1.isEmpty then
        some ⟨stationId, block.timestamps_ns, folded.1, block.captured_at_ns⟩
      else none
    (folded.2, preview)

/-- The sink set `AcquisitionRunner.run` actually uses: in test mode sink
initialization is skipped and `_active_sinks` is left empty; otherwise the
sinks built from the storage settings are opened and used. -/
def runActiveSinks (mode : String) (configuredSinks : List ℕ) : List ℕ :=
  if mode = "test" then [] else configuredSinks

/-- Fan-out as the spec words it (spec section 4.3 step 7): for each
configured channel, apply calibration and, for each `(ts[i], v[i])`, build
a Sample and dispatch it to every active sink. -/
def specFanout (activeSinks : List ℕ) (stationId : String)
    (channels : List ChannelConfig) (block : AcquisitionBlockM) :
    List (ℕ × Sample) :=
  channels.flatMap fun ch =>
    let calibrated := apply_calibration
      ((block.values_by_channel.lookup ch.index).getD []) ch.gain ch.offset
    (block.timestamps_ns.zip calibrated).flatMap
      (fun p => activeSinks.map fun s => (s, mkSample stationId ch p.1 p.2))

theorem handleBlock_foldl_disp (activeSinks : List ℕ) (stationId : String)
    (block : AcquisitionBlockM) :
    ∀ (channels : List ChannelConfig)
      (acc : List (ℕ × CalibratedChannelBlock) × List (ℕ × Sample)),
      (channels.foldl (handleChannelStep activeSinks stationId block) acc).2
        = acc.2 ++ specFanout activeSinks stationId channels block := by
  intro channels
  induction channels with
  | nil => intro acc; simp [specFanout]
  | cons ch chs ih =>
    intro acc
    rw [List.foldl_cons, ih]
    simp only [specFanout, List.flatMap_cons, handleChannelStep]
    by_cases hs : activeSinks.isEmpty
    · have : activeSinks = [] := List.isEmpty_iff.1 hs
      subst this
      simp
    · simp [hs, List.append_assoc]

/-- C2 — Fan-out in every mode.  The claim is refuted for test mode: `run`
skips sink initialization when `mode == "test"` (`_active_sinks = ()`), so
a preview session delivers no samples to the configured storage sinks.
Concretely: one channel, one configured sink `7`, a 2-sample block — in
test mode zero `(sink, sample)` pairs are dispatched while the preview
channel does receive the calibrated block. -/
theorem test_mode_skips_storage_sinks :
    runActiveSinks "test" [7] = [] ∧
    (handleBlock true true (runActiveSinks "test" [7]) "st"
      [⟨0, "LVDT", "mm", 1, 0⟩]
      ⟨[100, 200], [(0, [1, 2])], 500⟩).1 = [] ∧
    (handleBlock true true (runActiveSinks "test" [7]) "st"
      [⟨0, "LVDT", "mm", 1, 0⟩]
      ⟨[100, 200], [(0, [1, 2])], 500⟩).2
      = some ⟨"st", [100, 200], [(0, ⟨0, "LVDT", "mm", [1, 2]⟩)], 500⟩ := by
  refine ⟨rfl, rfl, ?_⟩
  show some _ = some _
  norm_num [handleBlock, handleChannelStep, runActiveSinks, apply_calibration]

theorem specFanout_nil_sinks (stationId : String) (channels : List ChannelConfig)
    (block : AcquisitionBlockM) :
    specFanout [] stationId channels block = [] := by
  induction channels with
  | nil => simp [specFanout]
  | cons ch chs ih =>
    simp only [specFanout, List.flatMap_cons] at ih ⊢
    simp [ih]

/-- C2 (amended) — Fan-out per mode: in `continuous`/`timed` mode the
active sinks are exactly the sinks built from the Storage settings, each
block is fanned out per configured channel (calibration applied, one
Sample per `(ts, value)` pair, dispatched to every active sink) and
nothing is published for preview; in `test` mode the storage sinks are
skipped (`_active_sinks` is empty), no sample is dispatched to any sink,
and only the preview channel can receive the calibrated block. -/
theorem fanout_per_mode (mode : String) (channelPresent : Bool)
    (sinks : List ℕ) (stationId : String)
    (channels : List ChannelConfig) (block : AcquisitionBlockM) :
    (mode ≠ "test" →
      runActiveSinks mode sinks = sinks ∧
      (handleBlock false channelPresent (runActiveSinks mode sinks)
          stationId channels block).1
        = specFanout sinks stationId channels block ∧
      (handleBlock false channelPresent (runActiveSinks mode sinks)
          stationId channels block).2 = none) ∧
    (mode = "test" →
      runActiveSinks mode sinks = [] ∧
      (handleBlock true channelPresent (runActiveSinks mode sinks)
          stationId channels block).1 = []) := by
  constructor
  · intro hmode
    have hs : runActiveSinks mode sinks = sinks := by
      simp [runActiveSinks, hmode]
    refine ⟨hs, ?_, ?_⟩
    · rw [hs]
      by_cases he : sinks.isEmpty
      · have : sinks = [] := List.isEmpty_iff.1 he
        subst this
        simp [handleBlock, specFanout_nil_sinks]
      · simp [handleBlock, he, handleBlock_foldl_disp]
    · rw [hs]
      by_cases he : sinks.isEmpty
      · have : sinks = [] := List.isEmpty_iff.1 he
        subst this
        simp [handleBlock]
      · simp [handleBlock, he]
  · intro hmode
    have hs : runActiveSinks mode sinks = [] := by
      simp [runActiveSinks, hmode]
    refine ⟨hs, ?_⟩
    rw [hs]
    cases hb : channelPresent
    · simp [handleBlock]
    · simp [handleBlock, handleBlock_foldl_disp, specFanout_nil_sinks]

theorem fanout_per_mode_witness :
    (handleBlock false true (runActiveSinks "continuous" [7]) "st"
      [⟨0, "LVDT", "mm", 1, 0⟩]
      ⟨[100, 200], [(0, [1, 2])], 500⟩).1
      = specFanout [7] "st" [⟨0, "LVDT", "mm", 1, 0⟩]
          ⟨[100, 200], [(0, [1, 2])], 500⟩ :=
  ((fanout_per_mode "continuous" true [7] "st" [⟨0, "LVDT", "mm", 1, 0⟩]
    ⟨[100, 200], [(0, [1, 2])], 500⟩).1 (by decide)).2.1

/-! ## Database sink retry policy (`InfluxSender._send_with_retries` and
`InfluxSender._should_retry`, `edge/scr/sinks/influx.py`).  Backoff delays
only affect sleeping, never the number of POSTs, and are not modelled. -/

/-- Outcome of one `session.post`: a transport exception
(`requests.RequestException`) or an HTTP response status. -/
inductive HttpOutcome where
  | transportError
  | status (code : ℕ)
deriving DecidableEq

/-- The retriable 4xx statuses. -/
def RETRIABLE_4XX : List ℕ := [408, 409, 425, 429]

/-- `InfluxSender._should_retry`. -/
def shouldRetry (statusCode : ℕ) : Bool :=
  if 500 ≤ statusCode then true
  else if 400 ≤ statusCode ∧ statusCode < 500 then decide (statusCode ∈ RETRIABLE_4XX)
  else false

/-- A retriable failure in the sense of the claim: a transport exception or
a 5xx response. -/
def retriableFailureB : HttpOutcome → Bool
  | HttpOutcome.transportError => true
  | HttpOutcome.status c => decide (500 ≤ c)

/-- `InfluxSender._send_with_retries` over the sequence of outcomes of the
successive POSTs; the list length is `max_attempts`, so the singleton case
is the final attempt (`attempt == self.max_attempts`).  Returns whether
the batch was delivered and how many POSTs were issued. -/
def sendWithRetries : List HttpOutcome → Bool × ℕ
  | [] => (false, 0)
  | [r] =>
    match r with
    | HttpOutcome.transportError => (false, 1)
    | HttpOutcome.status code => if code < 300 then (true, 1) else (false, 1)
  | r :: rest =>
    match r with
    | HttpOutcome.transportError =>
      let x := sendWithRetries rest
      (x.1, x.2 + 1)
    | HttpOutcome.status code =>
      if code < 300 then (true, 1)
      else if shouldRetry code then
        let x := sendWithRetries rest
        (x.1, x.2 + 1)
      else (false, 1)

theorem shouldRetry_of_5xx (c : ℕ) (h : 500 ≤ c) : shouldRetry c = true := by
  simp [shouldRetry, h]

theorem send_success_after_failures :
    ∀ (pre : List HttpOutcome) (c : ℕ) (suf : List HttpOutcome),
      (∀ r ∈ pre, retriableFailureB r = true) → c < 300 →
      sendWithRetries (pre ++ HttpOutcome.status c :: suf) = (true, pre.length + 1) := by
  intro pre
  induction pre with
  | nil =>
    intro c suf _ hc
    cases suf with
    | nil => simp [sendWithRetries, hc]
    | cons a as => simp [sendWithRetries, hc]
  | cons r pre ih =>
    intro c suf hretr hc
    have hr := hretr r (List.mem_cons_self r pre)
    have hrest := fun x hx => hretr x (List.mem_cons_of_mem r hx)
    have hcons : ∃ a as, pre ++ HttpOutcome.status c :: suf = a :: as := by
      cases pre with
      | nil => exact ⟨_, _, rfl⟩
      | cons p ps => exact ⟨_, _, rfl⟩
    obtain ⟨a, as, has⟩ := hcons
    cases r with
    | transportError =>
      rw [List.cons_append, has]
      simp only [sendWithRetries]
      rw [← has, ih c suf hrest hc]
      simp
    | status code =>
      simp only [retriableFailureB, decide_eq_true_eq] at hr
      rw [List.cons_append, has]
      simp only [sendWithRetries]
      rw [if_neg (by omega), if_pos (shouldRetry_of_5xx code hr), ← has,
        ih c suf hrest hc]
      simp

theorem send_all_retriable :
    ∀ (responses : List HttpOutcome),
      (∀ r ∈ responses, retriableFailureB r = true) →
      sendWithRetries responses = (false, responses.length) := by
  intro responses
  induction responses with
  | nil => intro _; simp [sendWithRetries]
  | cons r rest ih =>
    intro hretr
    have hr := hretr r (List.mem_cons_self r rest)
    have hrest := fun x hx => hretr x (List.mem_cons_of_mem r hx)
    cases rest with
    | nil =>
      cases r with
      | transportError => simp [sendWithRetries]
      | status code =>
        simp only [retriableFailureB, decide_eq_true_eq] at hr
        simp only [sendWithRetries]
        rw [if_neg (by omega)]
        simp
    | cons a as =>
      cases r with
      | transportError =>
        simp only [sendWithRetries]
        rw [ih hrest]
        simp
      | status code =>
        simp only [retriableFailureB, decide_eq_true_eq] at hr
        simp only [sendWithRetries]
        rw [if_neg (by omega), if_pos (shouldRetry_of_5xx code hr), ih hrest]
        simp

/-- C4 — Retry counts of `_send_with_retries` over a run of
`max_attempts = responses.length` planned attempts: (1) a non-retriable
4xx on the first attempt stops immediately with exactly one POST;
(2) retriable failures followed by a first success at attempt
`k = pre.length + 1` give exactly `min(k, max_attempts)` POSTs and the
batch is delivered; (3) when every attempt fails retriably, exactly
`max_attempts` POSTs are made and the batch is dropped; (4) the response
sequence `[500, 401]` under `max_attempts = 3` issues exactly 2 POSTs and
the batch is dropped. -/
theorem retry_counts (maxAttempts : ℕ) (responses : List HttpOutcome)
    (hlen : responses.length = maxAttempts) :
    (∀ c rest, responses = HttpOutcome.status c :: rest → 400 ≤ c → c < 500 →
      c ∉ RETRIABLE_4XX → sendWithRetries responses = (false, 1)) ∧
    (∀ (pre : List HttpOutcome) (c : ℕ) (suf : List HttpOutcome),
      (∀ r ∈ pre, retriableFailureB r = true) → c < 300 →
      responses = pre ++ HttpOutcome.status c :: suf →
      sendWithRetries responses = (true, min (pre.length + 1) maxAttempts)) ∧
    ((∀ r ∈ responses, retriableFailureB r = true) →
      sendWithRetries responses = (false, maxAttempts)) ∧
    sendWithRetries
        [HttpOutcome.status 500, HttpOutcome.status 401, HttpOutcome.transportError]
      = (false, 2) := by
  refine ⟨?_, ?_, ?_, by decide⟩
  · intro c rest hresp h400 h500 hmem
    subst hresp
    have hnr : shouldRetry c = false := by
      simp only [shouldRetry]
      rw [if_neg (by omega), if_pos (by omega)]
      simpa using hmem
    cases rest with
    | nil =>
      simp only [sendWithRetries]
      rw [if_neg (by omega)]
    | cons a as =>
      simp only [sendWithRetries]
      rw [if_neg (by omega), if_neg (by simp [hnr])]
  · intro pre c suf hretr hc hresp
    subst hresp
    rw [send_success_after_failures pre c suf hretr hc]
    have : pre.length + 1 ≤ maxAttempts := by
      rw [← hlen]
      simp
    rw [min_eq_left this]
  · intro hretr
    rw [send_all_retriable responses hretr, hlen]

theorem retry_counts_witness :
    sendWithRetries
        [HttpOutcome.status 500, HttpOutcome.status 204, HttpOutcome.transportError]
      = (true, min 2 3) :=
  (retry_counts 3
      [HttpOutcome.status 500, HttpOutcome.status 204, HttpOutcome.transportError]
      rfl).2.1
    [HttpOutcome.status 500] 204 [HttpOutcome.transportError]
    (by decide) (by omega) rfl

/-! ## Database sink bounded queue (`InfluxSender.enqueue`,
`_queue_lines`, `_put_with_overflow_policy`, `_drop_oldest`,
`edge/scr/sinks/influx.py`).  The queue is the `queue.Queue` of capacity
`queue_max_size`, head = oldest.  The worker may dequeue concurrently
between the producer's queue primitives: `drains` lists how many items
the worker removes before each successive primitive operation. -/

/-- Log events of the enqueue path. -/
inductive QueueEvent where
  | warnDroppedOldest
  | warnFoundEmpty
  | errCongestion
deriving DecidableEq

/-- `InfluxSender._put_with_overflow_policy`: retry `put_nowait`; on
`queue.Full` drop the oldest (`_drop_oldest`) and retry; if the queue
turns out empty on the dequeue (race), warn and drop the new line. -/
def putWOP (cap : ℕ) (drains : List ℕ) (q : List String) (line : String) :
    List String × List QueueEvent :=
  if (q.drop (drains.headD 0)).length < cap then
    (q.drop (drains.headD 0) ++ [line], [])
  else if h0 : ((q.drop (drains.headD 0)).drop ((drains.drop 1).headD 0)).length = 0 then
    ([], [QueueEvent.warnFoundEmpty, QueueEvent.errCongestion])
  else
    let x := putWOP cap (drains.drop 2)
      (((q.drop (drains.headD 0)).drop ((drains.drop 1).headD 0)).tail) line
    (x.1, QueueEvent.warnDroppedOldest :: x.2)
termination_by q.length
decreasing_by
  simp only [List.length_tail, List.length_drop]
  simp only [List.length_drop] at h0
  omega

/-- `InfluxSender._queue_lines` for a single line (the `handle_sample` /
`enqueue` path): one plain `put_nowait`, falling back to the overflow
policy on `queue.Full`. -/
def enqueueLine (cap : ℕ) (drains : List ℕ) (q : List String) (line : String) :
    List String × List QueueEvent :=
  if (q.drop (drains.headD 0)).length < cap then (q.drop (drains.headD 0) ++ [line], [])
  else putWOP cap (drains.drop 1) (q.drop (drains.headD 0)) line

/-- Repeated producer-side enqueues with no worker draining. -/
def enqueueAll (cap : ℕ) (lines : List String) : List String :=
  lines.foldl (fun q line => (enqueueLine cap [] q line).1) []

theorem putWOP_len (cap : ℕ) (line : String) :
    ∀ (n : ℕ) (q : List String), q.length ≤ n → ∀ (drains : List ℕ),
      ((putWOP cap drains q line).1).length ≤ cap := by
  intro n
  induction n with
  | zero =>
    intro q hq drains
    have hq0 : q = [] := List.length_eq_zero.1 (by omega)
    subst hq0
    rw [putWOP.eq_def]
    simp only [List.drop_nil, List.length_nil]
    split
    · rename_i hlt
      simp only [List.nil_append, List.length_cons, List.length_nil]
      omega
    · simp
  | succ m ih =>
    intro q hq drains
    rw [putWOP.eq_def]
    split
    · rename_i hlt
      simp only [List.length_append, List.length_cons, List.length_nil]
      omega
    · split
      · simp
      · rename_i hfull h0
        simp only []
        refine ih _ ?_ (drains.drop 2)
        simp only [List.length_tail, List.length_drop] at h0 ⊢
        omega

theorem enqueueLine_not_full (cap : ℕ) (q : List String) (line : String)
    (h : q.length < cap) :
    enqueueLine cap [] q line = (q ++ [line], []) := by
  rw [enqueueLine]
  simp only [List.headD_nil, List.drop_zero]
  rw [if_pos h]

theorem enqueueLine_full_no_drain (cap : ℕ) (a : String) (q' : List String)
    (line : String) (hlen : (a :: q').length = cap) :
    enqueueLine cap [] (a :: q') line
      = (q' ++ [line], [QueueEvent.warnDroppedOldest]) := by
  simp only [List.length_cons] at hlen
  rw [enqueueLine]
  simp only [List.headD_nil, List.drop_zero, List.drop_nil, List.length_cons]
  rw [if_neg (by omega)]
  rw [putWOP.eq_def]
  simp only [List.headD_nil, List.drop_zero, List.drop_nil, List.length_cons,
    List.tail_cons]
  rw [if_neg (by omega), dif_neg (by omega)]
  rw [putWOP.eq_def]
  simp only [List.headD_nil, List.drop_zero, List.drop_nil]
  rw [if_pos (by omega)]

/-- C5 — Bounded queue with drop-oldest.  (1) However full the queue was
and whatever the worker drains concurrently, an enqueue never leaves more
than `queue_max_size` lines; (2) an enqueue that finds the queue full
(and no concurrent drain) removes exactly the oldest line, logs one
warning, then enqueues the new line at the tail; (3) in the
full-on-retry-but-empty-on-dequeue race the new line is dropped with a
warning (plus the congestion error); (4) `queue_max_size = 4`, six
enqueues, no draining: exactly the 4 newest lines remain. -/
theorem queue_overflow_policy (cap : ℕ) (line : String) :
    (∀ (drains : List ℕ) (q : List String),
      ((enqueueLine cap drains q line).1).length ≤ cap) ∧
    (∀ (a : String) (q' : List String), (a :: q').length = cap →
      enqueueLine cap [] (a :: q') line
        = (q' ++ [line], [QueueEvent.warnDroppedOldest])) ∧
    enqueueLine 1 [0, 0, 1] ["a"] "b"
      = ([], [QueueEvent.warnFoundEmpty, QueueEvent.errCongestion]) ∧
    enqueueAll 4 ["l1", "l2", "l3", "l4", "l5", "l6"] = ["l3", "l4", "l5", "l6"] := by
  refine ⟨?_, fun a q' h => enqueueLine_full_no_drain cap a q' line h, ?_, ?_⟩
  · intro drains q
    rw [enqueueLine]
    split
    · rename_i hlt
      simp only [List.length_append, List.length_cons, List.length_nil]
      omega
    · exact putWOP_len cap line (q.drop (drains.headD 0)).length _ le_rfl _
  · rw [enqueueLine]
    norm_num
    rw [putWOP.eq_def]
    norm_num
  · simp only [enqueueAll, List.foldl_cons, List.foldl_nil]
    have e1 : (enqueueLine 4 [] [] "l1").1 = ["l1"] := by
      rw [enqueueLine_not_full 4 [] "l1" (by norm_num)]
      rfl
    have e2 : (enqueueLine 4 [] ["l1"] "l2").1 = ["l1", "l2"] := by
      rw [enqueueLine_not_full 4 ["l1"] "l2" (by norm_num)]
      rfl
    have e3 : (enqueueLine 4 [] ["l1", "l2"] "l3").1 = ["l1", "l2", "l3"] := by
      rw [enqueueLine_not_full 4 ["l1", "l2"] "l3" (by norm_num)]
      rfl
    have e4 : (enqueueLine 4 [] ["l1", "l2", "l3"] "l4").1 = ["l1", "l2", "l3", "l4"] := by
      rw [enqueueLine_not_full 4 ["l1", "l2", "l3"] "l4" (by norm_num)]
      rfl
    have e5 : (enqueueLine 4 [] ["l1", "l2", "l3", "l4"] "l5").1
        = ["l2", "l3", "l4", "l5"] := by
      rw [enqueueLine_full_no_drain 4 "l1" ["l2", "l3", "l4"] "l5" (by norm_num)]
      rfl
    have e6 : (enqueueLine 4 [] ["l2", "l3", "l4", "l5"] "l6").1
        = ["l3", "l4", "l5", "l6"] := by
      rw [enqueueLine_full_no_drain 4 "l2" ["l3", "l4", "l5"] "l6" (by norm_num)]
      rfl
    rw [e1, e2, e3, e4, e5, e6]

theorem queue_overflow_policy_witness :
    enqueueLine 2 [] ["x", "y"] "z"
      = (["y", "z"], [QueueEvent.warnDroppedOldest]) :=
  (queue_overflow_policy 2 "z").2.1 "x" ["y"] rfl

/-! ## Preview channel terminal sentinel (`PreviewQueue` in
`edge/webapi/acquisition.py`; the runner's `_publish_preview_block(None)`
in the `finally` of `AcquisitionRunner.run`; the forced
`PreviewQueue.close()` in `AcquisitionSession.start`'s finalizer).
`_enqueue` only posts a `_put` closure via `call_soon_threadsafe`; the
event loop runs pending closures in FIFO order, concurrently with the
runner thread, so the two are modelled as interleaved atomic steps. -/

/-- State of the preview bridge: the `_closed` flag, the FIFO of pending
`_put` closures (payload = their `force` flag), the queue contents
(`true` = sentinel `None`), and a monotone counter of sentinels that have
entered the queue. -/
structure PQState where
  closed : Bool
  cbs : List Bool
  queue : List Bool
  sentinels : ℕ
  maxsize : ℕ
deriving DecidableEq

/-- The two operations the runner-side code performs on the bridge when
leaving `running`: `put_nowait(None)` (the runner's own sentinel) and
`close()` (finalization's forced sentinel). -/
inductive RunnerAct where
  | publishSentinel
  | closeQueue
deriving DecidableEq

/-- `PreviewQueue._put` for the sentinel `None`, as run on the event loop:
skip when closed and not forced; when full drop the oldest item; then
enqueue the sentinel. -/
def runCallback (s : PQState) (force : Bool) : PQState :=
  if s.closed && !force then s
  else
    let q1 := if s.maxsize ≤ s.queue.length then s.queue.tail else s.queue
    { s with queue := q1 ++ [true], sentinels := s.sentinels + 1 }

/-- The runner-thread side of `_enqueue`/`close`: check `_closed`, set it
on close, and post the `_put` closure. -/
def stepRunner (s : PQState) : RunnerAct → PQState
  | RunnerAct.publishSentinel =>
    if s.closed then s else { s with cbs := s.cbs ++ [false] }
  | RunnerAct.closeQueue =>
    if s.closed then s else { s with closed := true, cbs := s.cbs ++ [true] }

/-- One event-loop step: run the oldest pending `_put` closure, if any. -/
def stepLoop (s : PQState) : PQState :=
  match s.cbs with
  | [] => s
  | f :: rest => runCallback { s with cbs := rest } f

/-- Interleaved execution: `true` schedules the next runner action,
`false` schedules one event-loop step. -/
def execSched : List Bool → List RunnerAct → PQState → List RunnerAct × PQState
  | [], prog, s => (prog, s)
  | true :: sch, [], s => execSched sch [] s
  | true :: sch, a :: prog, s => execSched sch prog (stepRunner s a)
  | false :: sch, prog, s => execSched sch prog (stepLoop s)

/-- Invariant carried through every interleaving: at most two sentinels are
ever produced; the remaining program is a suffix of
`[publishSentinel, closeQueue]` and the queue is closed once it is empty;
once closed, a sentinel is in the queue or a forced closure is pending. -/
def pqInv (prog : List RunnerAct) (s : PQState) : Prop :=
  s.sentinels + s.cbs.length + prog.length ≤ 2 ∧
  (s.closed = true → 1 ≤ s.sentinels + s.cbs.count true) ∧
  (prog = [RunnerAct.publishSentinel, RunnerAct.closeQueue] ∨
    prog = [RunnerAct.closeQueue] ∨ (prog = [] ∧ s.closed = true))

theorem stepLoop_inv (prog : List RunnerAct) (s : PQState) (h : pqInv prog s) :
    pqInv prog (stepLoop s) := by
  obtain ⟨h1, h2, h3⟩ := h
  rw [stepLoop]
  split
  · exact ⟨h1, h2, h3⟩
  · rename_i f rest hcbs
    rw [hcbs] at h1 h2
    simp only [List.length_cons, List.count_cons] at h1 h2
    rw [runCallback]
    split
    · rename_i hskip
      simp only [Bool.and_eq_true, Bool.not_eq_true'] at hskip
      refine ⟨by simp only; omega, fun hc => ?_, ?_⟩
      · have := h2 hc
        rw [hskip.2] at this
        simp at this ⊢
        omega
      · rcases h3 with h3 | h3 | h3
        · exact Or.inl h3
        · exact Or.inr (Or.inl h3)
        · exact Or.inr (Or.inr ⟨h3.1, h3.2⟩)
    · refine ⟨by simp only; omega, fun _ => by simp only; omega, ?_⟩
      rcases h3 with h3 | h3 | h3
      · exact Or.inl h3
      · exact Or.inr (Or.inl h3)
      · exact Or.inr (Or.inr ⟨h3.1, h3.2⟩)

theorem stepRunner_inv (prog : List RunnerAct) (a : RunnerAct) (s : PQState)
    (h : pqInv (a :: prog) s) : pqInv prog (stepRunner s a) := by
  obtain ⟨h1, h2, h3⟩ := h
  simp only [List.length_cons] at h1
  rcases h3 with h3 | h3 | h3
  · -- remaining program was [publish, close]: a = publish, prog = [close]
    obtain ⟨rfl, rfl⟩ : a = RunnerAct.publishSentinel ∧
        prog = [RunnerAct.closeQueue] := by
      have := List.cons.inj h3
      exact ⟨this.1, this.2⟩
    rw [stepRunner]
    split
    · refine ⟨?_, h2, Or.inr (Or.inl rfl)⟩
      simp only [List.length_cons, List.length_nil] at h1 ⊢
      omega
    · refine ⟨?_, fun hc => ?_, Or.inr (Or.inl rfl)⟩
      · simp only [List.length_append, List.length_cons, List.length_nil] at h1 ⊢
        omega
      · have := h2 hc
        simp
        omega
  · -- remaining program was [close]: a = close, prog = []
    obtain ⟨rfl, rfl⟩ : a = RunnerAct.closeQueue ∧ prog = [] := by
      have := List.cons.inj h3
      exact ⟨this.1, this.2⟩
    rw [stepRunner]
    split
    · rename_i hc
      refine ⟨?_, h2, Or.inr (Or.inr ⟨rfl, hc⟩)⟩
      simp only [List.length_cons, List.length_nil] at h1 ⊢
      omega
    · refine ⟨?_, fun _ => ?_, Or.inr (Or.inr ⟨rfl, rfl⟩)⟩
      · simp only [List.length_append, List.length_cons, List.length_nil] at h1 ⊢
        omega
      · simp only [List.count_append, List.count_cons, List.count_nil,
          show ((true == true) = true) from rfl, if_true]
        omega
  · exact absurd h3.1 (by simp)

theorem execSched_inv :
    ∀ (sched : List Bool) (prog : List RunnerAct) (s : PQState), pqInv prog s →
      pqInv (execSched sched prog s).1 (execSched sched prog s).2 := by
  intro sched
  induction sched with
  | nil => intro prog s h; exact h
  | cons c sch ih =>
    intro prog s h
    cases c with
    | true =>
      cases prog with
      | nil => exact ih [] s h
      | cons a prog => exact ih prog (stepRunner s a) (stepRunner_inv prog a s h)
    | false => exact ih prog (stepLoop s) (stepLoop_inv prog s h)

/-- C6 — Terminal sentinel uniqueness.  The claim is refuted: on normal
completion the runner publishes its own sentinel and session finalization
then force-publishes another through `PreviewQueue.close()`; when the
event loop runs the first `_put` closure before `close()` sets `_closed`,
both closures enqueue, and the preview channel receives the sentinel
twice.  Schedule: publish, loop step, close, loop step. -/
theorem sentinel_received_twice :
    (execSched [true, false, true, false]
      [RunnerAct.publishSentinel, RunnerAct.closeQueue]
      ⟨false, [], [], 0, 4⟩).2.sentinels = 2 := by
  decide

/-- C6 (amended) — Terminal sentinel bounds: in every interleaving of the
runner's sentinel publication and finalization's forced close with the
event loop, once both operations have run and the event loop has drained
the posted closures, the preview channel has received the terminal
sentinel at least once and at most twice (twice exactly when the runner's
own sentinel lands before `close()` marks the queue closed). -/
theorem sentinel_bounds (sched : List Bool) (q0 : List Bool) (m : ℕ)
    (hprog : (execSched sched
      [RunnerAct.publishSentinel, RunnerAct.closeQueue]
      ⟨false, [], q0, 0, m⟩).1 = [])
    (hcbs : (execSched sched
      [RunnerAct.publishSentinel, RunnerAct.closeQueue]
      ⟨false, [], q0, 0, m⟩).2.cbs = []) :
    1 ≤ (execSched sched
      [RunnerAct.publishSentinel, RunnerAct.closeQueue]
      ⟨false, [], q0, 0, m⟩).2.sentinels ∧
    (execSched sched
      [RunnerAct.publishSentinel, RunnerAct.closeQueue]
      ⟨false, [], q0, 0, m⟩).2.sentinels ≤ 2 := by
  have hinv := execSched_inv sched
    [RunnerAct.publishSentinel, RunnerAct.closeQueue]
    ⟨false, [], q0, 0, m⟩
    ⟨by simp, by simp, Or.inl rfl⟩
  obtain ⟨h1, h2, h3⟩ := hinv
  rw [hprog] at h1 h3
  rw [hcbs] at h1 h2
  rcases h3 with h3 | h3 | h3
  · exact absurd h3 (by simp)
  · exact absurd h3 (by simp)
  · have := h2 h3.2
    simp only [List.count_nil, List.length_nil] at this h1
    omega

theorem sentinel_bounds_witness :
    1 ≤ (execSched [true, true, false, false]
      [RunnerAct.publishSentinel, RunnerAct.closeQueue]
      ⟨false, [], [], 0, 4⟩).2.sentinels ∧
    (execSched [true, true, false, false]
      [RunnerAct.publishSentinel, RunnerAct.closeQueue]
      ⟨false, [], [], 0, 4⟩).2.sentinels ≤ 2 :=
  sentinel_bounds [true, true, false, false] [] 4 (by decide) (by decide)

/-! ## Sink close lifecycles and the FTP upload pass
(`InfluxSender.close` in `edge/scr/sinks/influx.py`; `CSVSink.close` in
`edge/scr/sinks/csv.py`; `FTPSink.close`, `_upload_pending_files` and
`_upload_via_ftp` in `edge/scr/sinks/ftp.py`).  Files are identified by
numbers; side effects are recorded as an event list. -/

/-- Observable effects of closing sinks and uploading files. -/
inductive SinkEffect where
  | joinWorker
  | closeHttpSession
  | flushFile (f : ℕ)
  | closeFile (f : ℕ)
  | flushCsv
  | transferFile (f : ℕ)
  | logUploadError
deriving DecidableEq

/-- `InfluxSender` close-relevant state: the `stop` flag and whether a
worker thread object exists. -/
structure InfluxState where
  stop : Bool
  workerStarted : Bool
deriving DecidableEq

/-- `InfluxSender.close`: return immediately when already stopped,
otherwise set `stop`, join the worker (when one was started) and close the
HTTP session. -/
def influxClose (s : InfluxState) : InfluxState × List SinkEffect :=
  if s.stop then (s, [])
  else
    ({ s with stop := true },
      (if s.workerStarted then [SinkEffect.joinWorker] else [])
        ++ [SinkEffect.closeHttpSession])

/-- `CSVSink` bookkeeping: `_files` and `_writers` are cleared by
`close()`; `_paths` is not. -/
structure CsvState where
  files : List ℕ
  writers : List ℕ
  paths : List ℕ
deriving DecidableEq

/-- `CSVSink.close`: flush and close every open handle, then clear
`_files` and `_writers` (leaving `_paths` in place). -/
def csvClose (s : CsvState) : CsvState × List SinkEffect :=
  ({ s with files := [], writers := [] },
    s.files.flatMap fun f => [SinkEffect.flushFile f, SinkEffect.closeFile f])

/-- `FTPSink` close-relevant state. -/
structure FtpState where
  hostSet : Bool
  csv : CsvState
deriving DecidableEq

/-- `FTPSink._upload_via_ftp`: transfer the listed files in order; a
transfer that raises aborts the rest of the loop (`ok f` says whether the
transfer of `f` succeeds).  Returns the effects and whether it raised. -/
def uploadViaFtp (ok : ℕ → Bool) : List ℕ → List SinkEffect × Bool
  | [] => ([], false)
  | f :: rest =>
    if ok f then
      let x := uploadViaFtp ok rest
      (SinkEffect.transferFile f :: x.1, x.2)
    else ([], true)

/-- `FTPSink._upload_pending_files`: list the CSV sink's current paths;
if any, flush the CSV sink and run the protocol upload, catching and
logging any exception instead of propagating it. -/
def uploadPendingFiles (ok : ℕ → Bool) (csv : CsvState) : List SinkEffect :=
  if csv.paths = [] then []
  else
    SinkEffect.flushCsv :: ((uploadViaFtp ok csv.paths).1
      ++ (if (uploadViaFtp ok csv.paths).2 then [SinkEffect.logUploadError] else []))

/-- `FTPSink.close`: nothing without a host; otherwise close the wrapped
CSV sink and run one upload pass over its current file list. -/
def ftpClose (ok : ℕ → Bool) (s : FtpState) : FtpState × List SinkEffect :=
  if s.hostSet then
    ({ s with csv := (csvClose s.csv).1 },
      (csvClose s.csv).2 ++ uploadPendingFiles ok (csvClose s.csv).1)
  else (s, [])

/-- C8 — Idempotent close.  Refuted for the FTP/SFTP sink: `FTPSink.close`
has no closed flag and `CSVSink.close` does not clear `_paths`, so a
second `close()` runs a second upload pass and re-transfers every listed
file.  Concretely: host configured, one staged file `0`, all transfers
succeeding — the second close flushes and re-uploads file `0`. -/
theorem ftp_close_not_idempotent :
    (ftpClose (fun _ => true) ((ftpClose (fun _ => true)
        ⟨true, ⟨[0], [0], [0]⟩⟩).1)).2
      = [SinkEffect.flushCsv, SinkEffect.transferFile 0] ∧
    (ftpClose (fun _ => true) ((ftpClose (fun _ => true)
        ⟨true, ⟨[0], [0], [0]⟩⟩).1)).2 ≠ [] := by
  refine ⟨?_, ?_⟩ <;> decide

/-- C8 (amended) — Close is idempotent for the Database and CSV sinks:
a second `close()` changes nothing and has no observable effect.  It is
not idempotent for the FTP/SFTP sink: with a host configured, every
`close()` (the second included) runs an upload pass over the CSV sink's
still-listed paths, so a second close re-uploads them whenever the path
list is non-empty; without a host, close does nothing at all. -/
theorem close_idempotency (s : InfluxState) (c : CsvState) (ok : ℕ → Bool)
    (f : FtpState) :
    influxClose (influxClose s).1 = ((influxClose s).1, []) ∧
    csvClose (csvClose c).1 = ((csvClose c).1, []) ∧
    (ftpClose ok (ftpClose ok f).1).2
      = (if f.hostSet then
          uploadPendingFiles ok ⟨[], [], f.csv.paths⟩ else []) ∧
    (f.hostSet = true → f.csv.paths ≠ [] →
      (ftpClose ok (ftpClose ok f).1).2 ≠ []) := by
  have hcsv : ∀ c2 : CsvState, csvClose (csvClose c2).1 = ((csvClose c2).1, []) := by
    intro c2
    simp [csvClose]
  have hftp : (ftpClose ok (ftpClose ok f).1).2
      = (if f.hostSet then
          uploadPendingFiles ok ⟨[], [], f.csv.paths⟩ else []) := by
    by_cases hh : f.hostSet
    · simp only [ftpClose, hh, if_true]
      have h1 : ((ftpClose ok f).1).hostSet = f.hostSet := by
        simp [ftpClose, hh]
      simp only [ftpClose, csvClose, hh, if_true]
      simp
    · simp [ftpClose, hh]
  refine ⟨?_, hcsv c, hftp, fun hh hp => ?_⟩
  · by_cases hs : s.stop
    · simp [influxClose, hs]
    · simp [influxClose, hs]
  · rw [hftp, if_pos hh]
    simp only [uploadPendingFiles]
    rw [if_neg hp]
    simp

theorem close_idempotency_witness :
    (ftpClose (fun _ => true) ((ftpClose (fun _ => true)
        ⟨true, ⟨[], [], [3]⟩⟩).1)).2 ≠ [] :=
  (close_idempotency ⟨false, false⟩ ⟨[], [], []⟩ (fun _ => true)
    ⟨true, ⟨[], [], [3]⟩⟩).2.2.2 rfl (by decide)

/-- C9 — Upload-pass failure isolation.  Refuted: the `try` in
`_upload_pending_files` wraps the whole protocol upload, and
`_upload_via_ftp` has no per-file handler, so the first failing transfer
aborts the remainder of the pass.  Concretely: files `[0, 1]` where only
file `1` would transfer successfully — file `1` is never transferred in
that pass. -/
theorem upload_failure_aborts_pass :
    SinkEffect.transferFile 1 ∉
      uploadPendingFiles (fun n => decide (n = 1)) ⟨[], [], [0, 1]⟩ := by
  decide

/-- C9 (amended) — Upload-pass failure handling: the failure of one
transfer never propagates out of the pass (it is caught and logged at the
pass level), but it aborts the remainder of the pass: exactly the files
before the first failing transfer are transferred, in order. -/
theorem upload_pass_aborts (ok : ℕ → Bool) (fs ws paths : List ℕ) :
    (uploadViaFtp ok paths).1
      = (paths.takeWhile ok).map SinkEffect.transferFile ∧
    (uploadViaFtp ok paths).2 = !paths.all ok ∧
    uploadPendingFiles ok ⟨fs, ws, paths⟩
      = (if paths = [] then [] else
          SinkEffect.flushCsv :: (((paths.takeWhile ok).map SinkEffect.transferFile)
            ++ (if paths.all ok then [] else [SinkEffect.logUploadError]))) := by
  have hmain : ∀ l : List ℕ, (uploadViaFtp ok l).1
      = (l.takeWhile ok).map SinkEffect.transferFile ∧
      (uploadViaFtp ok l).2 = !l.all ok := by
    intro l
    induction l with
    | nil => simp [uploadViaFtp]
    | cons a rest ih =>
      by_cases ha : ok a
      · simp [uploadViaFtp, ha, List.takeWhile_cons, ih.1, ih.2]
      · simp [uploadViaFtp, ha, List.takeWhile_cons]
  refine ⟨(hmain paths).1, (hmain paths).2, ?_⟩
  simp only [uploadPendingFiles]
  by_cases hp : paths = []
  · simp [hp]
  · rw [if_neg hp, if_neg hp, (hmain paths).1, (hmain paths).2]
    by_cases hall : paths.all ok
    · simp [hall]
    · simp [hall]

theorem upload_pass_aborts_witness :
    uploadPendingFiles (fun n => decide (n = 1)) ⟨[], [], [0, 1]⟩
      = (if ([0, 1] : List ℕ) = [] then [] else
          SinkEffect.flushCsv ::
            ((([0, 1].takeWhile fun n => decide (n = 1)).map SinkEffect.transferFile)
              ++ (if [0, 1].all (fun n => decide (n = 1)) then []
                  else [SinkEffect.logUploadError]))) :=
  (upload_pass_aborts (fun n => decide (n = 1)) [] [] [0, 1]).2.2

/-! ## Preview downsampling (`PreviewOptions.normalized_downsample` and
`_filter_block`, `edge/scr/preview.py`). -/

/-- Python slicing `l[::step]` for a positive stride: the elements whose
index is a multiple of `step`. -/
def sliceStride {α : Type} (l : List α) (step : ℕ) : List α :=
  (l.enum.filter fun p => p.1 % step == 0).map Prod.snd

/-- `PreviewOptions.normalized_downsample`: a missing value counts as 1,
and any step below 1 is normalized to 1 (with a warning, not a failure). -/
def normalizedDownsample (downsample : Option ℤ) : ℤ :=
  let step := match downsample with
    | some v => v
    | none => 1
  if step < 1 then 1 else step

/-- `_filter_block`: stride-slice the block's timestamps, returning `none`
(skip) when the slice is empty; keep each requested channel that is
present in the block and whose strided values are non-empty; return
`none` when no channel remains. -/
def filterBlock (block : CalibratedBlock) (channels : List ChannelConfig)
    (downsample : ℕ) : Option (List ℤ × List CalibratedChannelBlock) :=
  if sliceStride block.timestamps_ns downsample = [] then none
  else
    let selected := channels.filterMap fun cfg =>
      match block.channels.lookup cfg.index with
      | none => none
      | some cd =>
        if sliceStride cd.values downsample = [] then none
        else some ⟨cd.index, cd.name, cd.unit, sliceStride cd.values downsample⟩
    if selected = [] then none
    else some (sliceStride block.timestamps_ns downsample, selected)

theorem sliceStride_one {α : Type} (l : List α) : sliceStride l 1 = l := by
  unfold sliceStride
  rw [List.filter_eq_self.2]
  · exact List.enum_map_snd l
  · intro a _
    simp [Nat.mod_one]

/-- C10 — Preview downsample normalization and slicing: a downsample
below 1 (or missing) is normalized to 1, and stride-1 slicing emits every
timestamp and value unchanged; a step `s ≥ 1` is kept as is; every frame
`_filter_block` emits carries exactly the stride-`step` slice (from index
0) of the block's timestamps and of each kept channel's values, with at
least one channel kept; a block whose timestamp slice is empty is skipped
(`none`), not emitted. -/
theorem preview_downsample (step : ℕ) (block : CalibratedBlock)
    (channels : List ChannelConfig) :
    (∀ d : ℤ, d < 1 → normalizedDownsample (some d) = 1) ∧
    normalizedDownsample none = 1 ∧
    (∀ d : ℤ, 1 ≤ d → normalizedDownsample (some d) = d) ∧
    (∀ l : List ℤ, sliceStride l 1 = l) ∧
    (∀ ts chans, filterBlock block channels step = some (ts, chans) →
      ts = sliceStride block.timestamps_ns step ∧
      chans ≠ [] ∧
      ∀ c ∈ chans, ∃ cfg ∈ channels, ∃ cd,
        block.channels.lookup cfg.index = some cd ∧
        c = ⟨cd.index, cd.name, cd.unit, sliceStride cd.values step⟩) ∧
    (sliceStride block.timestamps_ns step = [] →
      filterBlock block channels step = none) := by
  refine ⟨?_, rfl, ?_, fun l => sliceStride_one l, ?_, ?_⟩
  · intro d hd
    simp only [normalizedDownsample]
    rw [if_pos hd]
  · intro d hd
    simp only [normalizedDownsample]
    rw [if_neg (by omega)]
  · intro ts chans hsome
    simp only [filterBlock] at hsome
    split at hsome
    · exact absurd hsome (by simp)
    · split at hsome
      · exact absurd hsome (by simp)
      · rename_i hne hsel
        obtain ⟨hts, hchans⟩ : sliceStride block.timestamps_ns step = ts ∧
            (channels.filterMap fun cfg =>
              match block.channels.lookup cfg.index with
              | none => none
              | some cd =>
                if sliceStride cd.values step = [] then none
                else some ⟨cd.index, cd.name, cd.unit, sliceStride cd.values step⟩)
              = chans := by
          have := Option.some.inj hsome
          exact ⟨congrArg Prod.fst this, congrArg Prod.snd this⟩
        refine ⟨hts.symm, ?_, ?_⟩
        · rw [← hchans]
          exact hsel
        · intro c hc
          rw [← hchans] at hc
          rw [List.mem_filterMap] at hc
          obtain ⟨cfg, hcfg, hf⟩ := hc
          cases hlk : block.channels.lookup cfg.index with
          | none => rw [hlk] at hf; exact absurd hf (by simp)
          | some cd =>
            rw [hlk] at hf
            simp only at hf
            split at hf
            · exact absurd hf (by simp)
            · exact ⟨cfg, hcfg, cd, hlk, (Option.some.inj hf).symm⟩
  · intro hempty
    simp only [filterBlock]
    rw [if_pos hempty]

theorem preview_downsample_witness :
    normalizedDownsample (some (-3)) = 1 :=
  (preview_downsample 2 ⟨"st", [], [], 0⟩ []).1 (-3) (by omega)

end RaspiMcc








